import Mathlib

/-!
# EventSource: the broadcast hub and the streaming session of `Server/server.go`

The development embeds the Go program in three layers.

* The hub, one `select` iteration at a time (`EventServer.listen`, lines 75-98):
  `listenCase` processes one received message when every fan-out send completes.
* The hub, one channel communication at a time (`hubComm`): the same loop with the
  blocking sends of line 94 made explicit, each send needing its receiver.
* The session (`EventServer.ServeHTTP`, lines 30-69) as a state machine over the events
  of its environment: a delivery on its channel, the close notification.

Channels of type `chan []byte` are compared by identity in Go; a `Handle` is that identity.
-/

namespace EventSource

/-- Identity of one `chan []byte` value (line 38: `client := make(chan []byte)`). -/
abbrev Handle := Nat

/-- An event payload, Go `[]byte`. -/
abbrev Event := List UInt8

/-- The conversion `[]byte(data)` of line 72 for a string literal: its UTF-8 bytes. -/
def goBytes (data : String) : List UInt8 := data.toUTF8.data.toList

/-! ## The map `clients map[chan []byte]bool` -/

/-- A Go `map[chan []byte]bool` as the list of its entries; the list is a map when no key
has two entries, which `set` and `delete` preserve. -/
abbrev ClientMap := List (Handle × Bool)

namespace ClientMap

/-- Map assignment `m[k] = v`: overwrite the entry of `k` or add one. -/
def set : ClientMap → Handle → Bool → ClientMap
  | [], k, v => [(k, v)]
  | (k', v') :: rest, k, v => if k' = k then (k, v) :: rest else (k', v') :: set rest k v

/-- The builtin `delete(m, k)`: drop the entry of `k`, nothing if there is none. -/
def delete (m : ClientMap) (k : Handle) : ClientMap :=
  m.filter (fun entry => entry.1 != k)

/-- The keys that hold an entry. -/
def keys (m : ClientMap) : List Handle := m.map Prod.fst

/-- The builtin `len(m)`. -/
def len (m : ClientMap) : Nat := m.length

end ClientMap

/-- The order in which one `for client, _ := range m` statement visits the keys of `m`.
Go leaves the order unspecified; every key with an entry is visited exactly once. -/
structure RangeOrder where
  visit : ClientMap → List Handle
  perm : ∀ m : ClientMap, (visit m).Perm m.keys

/-- The range order that follows the entry list. -/
def RangeOrder.inOrder : RangeOrder := ⟨fun m => m.keys, fun _ => List.Perm.refl _⟩

/-- The range order that follows the entry list backwards. -/
def RangeOrder.backwards : RangeOrder :=
  ⟨fun m => m.keys.reverse, fun m => List.reverse_perm m.keys⟩

/-! ## The hub, one `select` iteration at a time -/

/-- The state of `EventServer` that `listen` reads and writes: the map `clients`.
The channels `accept` and `closing` are unbuffered and hold nothing. -/
structure EventServer where
  clients : ClientMap
deriving DecidableEq, Repr

/-- What `NewEventServer` builds (lines 17-28): an empty map. -/
def NewEventServer : EventServer := { clients := [] }

/-- The value one `select` of `listen` receives: from `accept` (Register), from
`closing` (Unregister) or from `notifier` (Publish). -/
inductive Msg where
  | accept (s : Handle)
  | closing (s : Handle)
  | notifier (event : Event)
deriving DecidableEq, Repr

/-- The value `Publish(data)` puts on `notifier` (line 72). -/
def Publish (data : String) : Msg := Msg.notifier (goBytes data)

/-- One completed channel send `client <- event` of line 94. -/
abbrev Delivery := Handle × Event

/-- One iteration of the `for { select { ... } }` of `listen` on the received value,
with the sends of its fan-out loop all completed: the new state and the sends made,
in the order they were made. The `log.Printf` calls of lines 83 and 89 only report
`len(server.clients)` and are left out. -/
def listenCase (ρ : RangeOrder) (server : EventServer) : Msg → EventServer × List Delivery
  | Msg.accept s => ({ clients := server.clients.set s true }, [])
  | Msg.closing s => ({ clients := server.clients.delete s }, [])
  | Msg.notifier event =>
      (server, (ρ.visit server.clients).map (fun client => (client, event)))

/-- The loop `listen` over the values it receives, in the order it receives them;
`ρ n` is the range order of iteration `n`. -/
def listen (ρ : Nat → RangeOrder) (server : EventServer) :
    List Msg → EventServer × List Delivery
  | [] => (server, [])
  | m :: ms =>
      let step := listenCase (ρ 0) server m
      let rest := listen (fun n => ρ (n + 1)) step.1 ms
      (rest.1, step.2 ++ rest.2)

/-- The events sent on the channel `h`, in order. -/
def sentTo (h : Handle) (log : List Delivery) : List Event :=
  (log.filter (fun d => d.1 == h)).map Prod.snd

/-- Whether `h` holds an entry of the map: the handle is registered. -/
def registered (server : EventServer) (h : Handle) : Prop := h ∈ server.clients.keys

instance (server : EventServer) (h : Handle) : Decidable (registered server h) :=
  inferInstanceAs (Decidable (h ∈ server.clients.keys))

/-- Every value stored in the map is `true` and no key has two entries: what `listen`
maintains from the empty map. -/
def ClientMap.WellFormed (m : ClientMap) : Prop :=
  m.keys.Nodup ∧ ∀ entry ∈ m, entry.2 = true

/-- The registration set the specification prescribes for one message: Register is
set insertion, Unregister is set removal, Publish leaves the set alone. -/
def specRegistry (set : Finset Handle) : Msg → Finset Handle
  | Msg.accept s => insert s set
  | Msg.closing s => set.erase s
  | Msg.notifier _ => set

/-- The payloads the specification prescribes for the queue of `h`: those of the Publish
messages that arrive while `h` is registered, in arrival order; `reg` tells whether `h`
is registered before the first message. -/
def specQueue (h : Handle) : Bool → List Msg → List Event
  | _, [] => []
  | reg, Msg.accept s :: ms => specQueue h (reg || s == h) ms
  | reg, Msg.closing s :: ms => specQueue h (reg && s != h) ms
  | reg, Msg.notifier event :: ms =>
      if reg then event :: specQueue h reg ms else specQueue h reg ms

/-! ## The hub, one channel communication at a time

The sends of line 94 are sends on unbuffered channels (line 38: `make(chan []byte)`) outside
any `select`: each one blocks the goroutine `listen` until the owner of the channel receives.
-/

/-- Where the goroutine `listen` stands. -/
inductive HubPc where
  /-- Line 77: waiting in `select` for any of the three channels. -/
  | select
  /-- Line 94: inside the `range` loop for `event`, blocked in `client <- event` for the
  first handle of `pending`; the rest of `pending` is still to visit. -/
  | send (event : Event) (pending : List Handle)
deriving DecidableEq, Repr

/-- The goroutine `listen` with the channels it owns. -/
structure Hub where
  /-- The map `clients`. -/
  server : EventServer
  /-- The program point. -/
  pc : HubPc
  /-- The buffer of `notifier` (line 19: capacity 1), oldest first. -/
  notifier : List Event
  /-- The sends completed so far. -/
  sent : List Delivery
deriving DecidableEq, Repr

/-- The hub right after `NewEventServer`. -/
def Hub.new : Hub := { server := NewEventServer, pc := HubPc.select, notifier := [], sent := [] }

/-- One completed channel operation that involves the hub. -/
inductive Comm where
  /-- A session completes `server.accept <- client` (line 39). -/
  | accept (s : Handle)
  /-- A session or its watcher completes `server.closing <- client` (line 42 or 49). -/
  | closing (s : Handle)
  /-- A call of `Publish` completes `server.notifier <- []byte(data)` (line 72). -/
  | publish (event : Event)
  /-- The hub takes `case event := <-server.notifier` (line 90) and starts the `range`
  loop, which will visit the keys in the order `order`. -/
  | notify (order : List Handle)
  /-- The owner of `client` completes a receive `<-client` (line 64). -/
  | recv (client : Handle)
deriving DecidableEq, Repr

/-- The program point after the `range` loop has `pending` left to visit: the loop body
for its first handle, or back to `select` when nothing is left. -/
def HubPc.loop (event : Event) : List Handle → HubPc
  | [] => HubPc.select
  | client :: rest => HubPc.send event (client :: rest)

/-- The hub after the communication `c`, or `none` when the hub does not take part in `c`
in its present state (the other side stays blocked). -/
def hubComm (hub : Hub) : Comm → Option Hub
  | Comm.accept s =>
      match hub.pc with
      | HubPc.select => some { hub with server := { clients := hub.server.clients.set s true } }
      | HubPc.send _ _ => none
  | Comm.closing s =>
      match hub.pc with
      | HubPc.select => some { hub with server := { clients := hub.server.clients.delete s } }
      | HubPc.send _ _ => none
  | Comm.publish event =>
      if hub.notifier.length < 1 then some { hub with notifier := hub.notifier ++ [event] }
      else none
  | Comm.notify order =>
      match hub.pc, hub.notifier with
      | HubPc.select, event :: rest =>
          if order.Perm hub.server.clients.keys then
            some { hub with pc := HubPc.loop event order, notifier := rest }
          else none
      | _, _ => none
  | Comm.recv client =>
      match hub.pc with
      | HubPc.send event (first :: rest) =>
          if first = client then
            some { hub with pc := HubPc.loop event rest, sent := hub.sent ++ [(client, event)] }
          else none
      | _ => none

/-- The hub after the communications `cs` in this order, `none` when one of them cannot
happen. -/
def hubRun (hub : Hub) : List Comm → Option Hub
  | [] => some hub
  | c :: cs =>
      match hubComm hub c with
      | some next => hubRun next cs
      | none => none

/-- The communications that process the message `m` from `select` to `select` when every
receiver is ready: for a Publish, into the buffer, out of it, one receive per handle. -/
def commsOf (ρ : RangeOrder) (server : EventServer) : Msg → List Comm
  | Msg.accept s => [Comm.accept s]
  | Msg.closing s => [Comm.closing s]
  | Msg.notifier event =>
      Comm.publish event :: Comm.notify (ρ.visit server.clients) ::
        (ρ.visit server.clients).map Comm.recv

/-- A communication the hub takes part in while it stands in the `range` loop: a receive
by a client, or a Publish filling the buffer. -/
def Comm.duringFanout : Comm → Bool
  | Comm.publish _ => true
  | Comm.recv _ => true
  | _ => false

/-- The payloads that calls of `Publish` have put on `notifier` during `cs`, in the order
the sends completed. -/
def published : List Comm → List Event
  | [] => []
  | Comm.publish event :: cs => event :: published cs
  | _ :: cs => published cs

/-- What ties the sends on the channel `h` to the payloads `past` put on `notifier` so
far: `past` is what the hub has taken followed by the buffer, and the events sent on `h`
are a subsequence of what the hub has taken, the event of a running fan-out counting only
once `h` is behind it. -/
def FifoInv (h : Handle) (hub : Hub) (past : List Event) : Prop :=
  hub.server.clients.keys.Nodup ∧
    ∃ taken : List Event, past = taken ++ hub.notifier ∧
      match hub.pc with
      | HubPc.select => (sentTo h hub.sent).Sublist taken
      | HubPc.send e pending =>
          pending.Nodup ∧ ∃ before : List Event, taken = before ++ [e] ∧
            (sentTo h hub.sent).Sublist (if h ∈ pending then before else taken)

/-! ## The session `ServeHTTP` -/

/-- What `ServeHTTP` finds out about its `http.ResponseWriter`. -/
structure ResponseWriter where
  /-- Whether the assertion `w.(http.Flusher)` of line 32 succeeds. -/
  flusher : Bool
  /-- Whether the assertion `w.(http.CloseNotifier)` of line 46 succeeds; the assertion
  has no `ok` result, so it panics otherwise. -/
  closeNotifier : Bool
deriving DecidableEq, Repr

/-- The constant `http.StatusInternalServerError`. -/
def StatusInternalServerError : Nat := 500

/-- The constant `http.StatusOK`. -/
def StatusOK : Nat := 200

/-- One operation of the session on the hub or on the transport. -/
inductive Effect where
  /-- The call `http.Error(w, error, code)` (line 34). -/
  | httpError (error : String) (code : Nat)
  /-- The send `server.accept <- client` (line 39). -/
  | accept (client : Handle)
  /-- The send `server.closing <- client` (line 42 or 49). -/
  | closing (client : Handle)
  /-- The call `w.Header().Set(key, value)` (lines 52-56). -/
  | setHeader (key value : String)
  /-- The call `w.WriteHeader(statusCode)` (line 58). -/
  | writeHeader (statusCode : Nat)
  /-- The bytes one `fmt.Fprintf(w, ...)` hands to `w` (line 64). -/
  | write (bytes : List UInt8)
  /-- The call `flusher.Flush()` (line 67). -/
  | flush
deriving DecidableEq, Repr

/-- Where the goroutine that runs `ServeHTTP` stands. -/
inductive HandlerPc where
  /-- Line 64: in the `for` loop, blocked in `<-client`. -/
  | reading
  /-- Line 35: returned after `http.Error`. -/
  | returned
  /-- Left by a panic, the deferred function of lines 41-43 has run. -/
  | unwound
deriving DecidableEq, Repr

/-- Where the goroutine of lines 47-50 stands. -/
inductive WatcherPc where
  /-- Not started. -/
  | absent
  /-- Line 48: blocked in `<-notify`. -/
  | waiting
  /-- Past line 49. -/
  | done
deriving DecidableEq, Repr

/-- One call of `ServeHTTP` with its watcher goroutine. -/
structure Session where
  /-- The channel made on line 38. -/
  client : Handle
  handler : HandlerPc
  watcher : WatcherPc
  /-- The operations performed so far, oldest first. -/
  trace : List Effect
deriving DecidableEq, Repr

/-- The bytes `fmt.Fprintf(w, "data: %s\n\n", event)` writes: the verb `%s` prints a
`[]byte` operand as its bytes. -/
def Fprintf (event : Event) : List UInt8 :=
  goBytes "data: " ++ event ++ goBytes "\n\n"

/-- The header assignments of lines 52-56 and the `WriteHeader` of line 58. -/
def streamHeaders : List Effect :=
  [Effect.setHeader "Content-Type" "text/event-stream",
   Effect.setHeader "Transfer-Encoding" "chunked",
   Effect.setHeader "Cache-Control" "no-cache",
   Effect.setHeader "Connection" "keep-alive",
   Effect.setHeader "Access-Control-Allow-Origin" "*",
   Effect.writeHeader StatusOK]

/-- The call `ServeHTTP(w, r)` up to its first blocking receive; `client` is the
identity of the channel line 38 makes. The trace records a send on `accept` or `closing`
when the session reaches it; the hub receives it when it next stands in `select`.

* `w` is no `http.Flusher`: `http.Error`, return (lines 33-36).
* `w` is no `http.CloseNotifier`: line 46 panics after the send on `accept` and the
  `defer`; the deferred function sends on `closing`.
* Otherwise: register, start the watcher, set the headers, enter the loop. -/
def ServeHTTP (w : ResponseWriter) (client : Handle) : Session :=
  if w.flusher = false then
    { client := client, handler := HandlerPc.returned, watcher := WatcherPc.absent,
      trace := [Effect.httpError "Streaming unsupported" StatusInternalServerError] }
  else if w.closeNotifier = false then
    { client := client, handler := HandlerPc.unwound, watcher := WatcherPc.absent,
      trace := [Effect.accept client, Effect.closing client] }
  else
    { client := client, handler := HandlerPc.reading, watcher := WatcherPc.waiting,
      trace := Effect.accept client :: streamHeaders }

/-- How the transport answers one pass of the loop body (lines 64-67). `Fprintf` returns
an error value, which line 64 discards; `Flush` returns nothing; either may panic. -/
inductive Outcome where
  /-- The write succeeds. -/
  | ok
  /-- The write fails: `Fprintf` returns a non-nil error. -/
  | writeError
  /-- The write panics. -/
  | writePanic
  /-- The write returns, `Flush` panics. -/
  | flushPanic
deriving DecidableEq, Repr

/-- What the environment does to a session. -/
inductive Input where
  /-- The hub completes `client <- event`, and the transport answers with `outcome`. -/
  | event (event : Event) (outcome : Outcome)
  /-- A value arrives on the channel `notify` of line 46. -/
  | closeNotify
deriving DecidableEq, Repr

/-- The session after one input.

* An event while the handler is in the loop: one pass of the body, lines 64-67; the
  error result of `Fprintf` is not looked at, so `ok` and `writeError` run alike and the
  loop starts over. A panic unwinds the handler, which runs the deferred send on `closing`.
* An event while the handler is gone: nobody receives, nothing happens.
* The close notification while the watcher waits: the watcher sends on `closing`
  (line 49) and ends; the handler is not involved. -/
def Session.step (s : Session) : Input → Session
  | Input.event event outcome =>
      match s.handler with
      | HandlerPc.reading =>
          match outcome with
          | Outcome.ok =>
              { s with trace := s.trace ++ [Effect.write (Fprintf event), Effect.flush] }
          | Outcome.writeError =>
              { s with trace := s.trace ++ [Effect.write (Fprintf event), Effect.flush] }
          | Outcome.writePanic =>
              { s with handler := HandlerPc.unwound,
                       trace := s.trace ++
                         [Effect.write (Fprintf event), Effect.closing s.client] }
          | Outcome.flushPanic =>
              { s with handler := HandlerPc.unwound,
                       trace := s.trace ++
                         [Effect.write (Fprintf event), Effect.flush, Effect.closing s.client] }
      | HandlerPc.returned => s
      | HandlerPc.unwound => s
  | Input.closeNotify =>
      match s.watcher with
      | WatcherPc.waiting =>
          { s with watcher := WatcherPc.done, trace := s.trace ++ [Effect.closing s.client] }
      | WatcherPc.absent => s
      | WatcherPc.done => s

/-- The session after the inputs, in order. -/
def Session.run (s : Session) (inputs : List Input) : Session :=
  inputs.foldl Session.step s

/-- The messages a trace submits to the hub: its sends on `accept` and on `closing`. -/
def submitted : List Effect → List Msg
  | [] => []
  | Effect.accept client :: rest => Msg.accept client :: submitted rest
  | Effect.closing client :: rest => Msg.closing client :: submitted rest
  | _ :: rest => submitted rest

/-- The number of sends on `closing` for `client` in a trace. -/
def unregisterCount (client : Handle) (trace : List Effect) : Nat :=
  trace.count (Effect.closing client)

/-- The byte blocks written to the transport in a trace, in order. -/
def frames : List Effect → List (List UInt8)
  | [] => []
  | Effect.write bytes :: rest => bytes :: frames rest
  | _ :: rest => frames rest

/-- Whether an input makes a handler in the loop panic. -/
def Input.panics : Input → Bool
  | Input.event _ Outcome.writePanic => true
  | Input.event _ Outcome.flushPanic => true
  | _ => false

/-- The inputs of a session whose channel receives `events` and whose transport accepts
every write. -/
def deliveredOk (events : List Event) : List Input :=
  events.map (fun event => Input.event event Outcome.ok)

/-! ## Concrete inputs -/

/-- The payload `x`. -/
def xEvent : Event := goBytes "x"

/-- The payload `y`. -/
def yEvent : Event := goBytes "y"

/-- Every iteration ranges over the map in entry order. -/
def entryOrder : Nat → RangeOrder := fun _ => RangeOrder.inOrder

/-- A response writer that supports flushing and close notification. -/
def streamingWriter : ResponseWriter := { flusher := true, closeNotifier := true }

/-- A response writer that does not support flushing. -/
def plainWriter : ResponseWriter := { flusher := false, closeNotifier := true }

/-- The hub with handles 1 and 2 registered, waiting in `select`, `x` in the buffer. -/
def twoClientHub : Hub :=
  { server := { clients := [(1, true), (2, true)] }, pc := HubPc.select,
    notifier := [xEvent], sent := [] }

/-- The hub of `twoClientHub` after it took `x` with range order 2 then 1 and handle 2
received: blocked in the send to handle 1. -/
def halfServedHub : Hub :=
  { server := { clients := [(1, true), (2, true)] }, pc := HubPc.send xEvent [1],
    notifier := [], sent := [(2, xEvent)] }

/-! ## Lemmas on the map -/

theorem ClientMap.mem_keys_set (m : ClientMap) (k : Handle) (v : Bool) (h : Handle) :
    h ∈ (m.set k v).keys ↔ h = k ∨ h ∈ m.keys := by
  induction m with
  | nil => simp [ClientMap.set, ClientMap.keys]
  | cons entry rest ih =>
    obtain ⟨k', v'⟩ := entry
    unfold ClientMap.set
    by_cases hk : k' = k
    · subst hk
      simp [ClientMap.keys]
    · simp only [hk, if_false]
      simp only [ClientMap.keys, List.map_cons, List.mem_cons] at ih ⊢
      rw [ih]
      tauto

theorem ClientMap.mem_keys_delete (m : ClientMap) (k : Handle) (h : Handle) :
    h ∈ (m.delete k).keys ↔ h ≠ k ∧ h ∈ m.keys := by
  simp only [ClientMap.delete, ClientMap.keys, List.mem_map, List.mem_filter]
  constructor
  · rintro ⟨entry, ⟨hmem, hne⟩, rfl⟩
    exact ⟨by simpa using hne, entry, hmem, rfl⟩
  · rintro ⟨hne, entry, hmem, rfl⟩
    exact ⟨entry, ⟨hmem, by simpa using hne⟩, rfl⟩

/-- Assignment keeps the entry list a map: no key gets a second entry. -/
theorem ClientMap.nodup_set (m : ClientMap) (k : Handle) (v : Bool) (hm : m.keys.Nodup) :
    (m.set k v).keys.Nodup := by
  induction m with
  | nil => simp [ClientMap.set, ClientMap.keys]
  | cons entry rest ih =>
    obtain ⟨k', v'⟩ := entry
    have hk' : k' ∉ ClientMap.keys rest := (List.nodup_cons.mp hm).1
    have hrest : (ClientMap.keys rest).Nodup := (List.nodup_cons.mp hm).2
    unfold ClientMap.set
    by_cases hk : k' = k
    · subst hk
      simp only [if_true]
      exact hm
    · simp only [hk, if_false]
      show (k' :: ClientMap.keys (ClientMap.set rest k v)).Nodup
      refine List.nodup_cons.mpr ⟨?_, ih hrest⟩
      rw [ClientMap.mem_keys_set]
      rintro (h | h)
      · exact hk h
      · exact hk' h

theorem ClientMap.nodup_delete (m : ClientMap) (k : Handle) (hm : m.keys.Nodup) :
    (m.delete k).keys.Nodup :=
  hm.sublist (List.Sublist.map _ (List.filter_sublist _))

theorem ClientMap.wellFormed_set (m : ClientMap) (k : Handle) (hm : m.WellFormed) :
    (m.set k true).WellFormed := by
  induction m with
  | nil =>
    refine ⟨by simp [ClientMap.set, ClientMap.keys], ?_⟩
    intro entry he
    simp [ClientMap.set] at he
    simp [he]
  | cons entry rest ih =>
    obtain ⟨k', v'⟩ := entry
    obtain ⟨hnd, hval⟩ := hm
    have hrest : ClientMap.WellFormed rest :=
      ⟨(List.nodup_cons.mp hnd).2, fun x hx => hval x (List.mem_cons_of_mem _ hx)⟩
    have hk' : k' ∉ ClientMap.keys rest := (List.nodup_cons.mp hnd).1
    unfold ClientMap.set
    by_cases hk : k' = k
    · subst hk
      simp only [if_true]
      refine ⟨hnd, ?_⟩
      intro x hx
      rcases List.mem_cons.mp hx with rfl | hx
      · rfl
      · exact hval x (List.mem_cons_of_mem _ hx)
    · simp only [hk, if_false]
      obtain ⟨ihnd, ihval⟩ := ih hrest
      refine ⟨?_, ?_⟩
      · show (k' :: ClientMap.keys (ClientMap.set rest k true)).Nodup
        refine List.nodup_cons.mpr ⟨?_, ihnd⟩
        rw [ClientMap.mem_keys_set]
        rintro (h | h)
        · exact hk h
        · exact hk' h
      · intro x hx
        rcases List.mem_cons.mp hx with rfl | hx
        · exact hval _ (List.mem_cons_self _ _)
        · exact ihval x hx

theorem ClientMap.wellFormed_delete (m : ClientMap) (k : Handle) (hm : m.WellFormed) :
    (m.delete k).WellFormed := by
  obtain ⟨hnd, hval⟩ := hm
  refine ⟨?_, ?_⟩
  · have hsub : List.Sublist (ClientMap.keys (ClientMap.delete m k)) (ClientMap.keys m) :=
      List.Sublist.map _ (List.filter_sublist _)
    exact hnd.sublist hsub
  · intro x hx
    exact hval x (List.mem_of_mem_filter hx)

/-- Assigning `true` to a key that already holds an entry changes nothing. -/
theorem ClientMap.set_of_mem (m : ClientMap) (k : Handle) (hm : m.WellFormed)
    (hk : k ∈ m.keys) : m.set k true = m := by
  induction m with
  | nil => simp [ClientMap.keys] at hk
  | cons entry rest ih =>
    obtain ⟨k', v'⟩ := entry
    obtain ⟨hnd, hval⟩ := hm
    have hv : v' = true := hval (k', v') (List.mem_cons_self _ _)
    unfold ClientMap.set
    by_cases hkk : k' = k
    · subst hkk
      simp [hv]
    · simp only [hkk, if_false]
      have hrest : ClientMap.WellFormed rest :=
        ⟨(List.nodup_cons.mp hnd).2, fun x hx => hval x (List.mem_cons_of_mem _ hx)⟩
      have hk2 : k ∈ ClientMap.keys rest := by
        simp only [ClientMap.keys, List.map_cons, List.mem_cons] at hk
        rcases hk with h | h
        · exact absurd h.symm hkk
        · exact h
      rw [ih hrest hk2]

/-- Deleting a key that holds no entry changes nothing. -/
theorem ClientMap.delete_of_not_mem (m : ClientMap) (k : Handle) (hk : k ∉ m.keys) :
    m.delete k = m := by
  unfold ClientMap.delete
  rw [List.filter_eq_self]
  intro entry he
  have : entry.1 ≠ k := by
    rintro rfl
    exact hk (List.mem_map_of_mem Prod.fst he)
  simpa using this

/-! ## Lemmas on the hub loop -/

theorem listenCase_wellFormed (ρ : RangeOrder) (server : EventServer) (m : Msg)
    (hs : server.clients.WellFormed) : (listenCase ρ server m).1.clients.WellFormed := by
  cases m with
  | accept s => exact ClientMap.wellFormed_set _ s hs
  | closing s => exact ClientMap.wellFormed_delete _ s hs
  | notifier event => exact hs

theorem listen_wellFormed (ρ : Nat → RangeOrder) (server : EventServer) (ms : List Msg)
    (hs : server.clients.WellFormed) : (listen ρ server ms).1.clients.WellFormed := by
  induction ms generalizing ρ server with
  | nil => exact hs
  | cons m ms ih => exact ih _ _ (listenCase_wellFormed (ρ 0) server m hs)

theorem listenCase_nodup (ρ : RangeOrder) (server : EventServer) (m : Msg)
    (hs : server.clients.keys.Nodup) : (listenCase ρ server m).1.clients.keys.Nodup := by
  cases m with
  | accept s => exact ClientMap.nodup_set _ s true hs
  | closing s => exact ClientMap.nodup_delete _ s hs
  | notifier event => exact hs

theorem listen_nodup (ρ : Nat → RangeOrder) (server : EventServer) (ms : List Msg)
    (hs : server.clients.keys.Nodup) : (listen ρ server ms).1.clients.keys.Nodup := by
  induction ms generalizing ρ server with
  | nil => exact hs
  | cons m ms ih => exact ih _ _ (listenCase_nodup (ρ 0) server m hs)

/-- A handle that is not registered stays so while no Register for it arrives. -/
theorem not_registered_listen (ρ : Nat → RangeOrder) (server : EventServer) (ms : List Msg)
    (h : Handle) (hs : ¬ registered server h) (hms : Msg.accept h ∉ ms) :
    ¬ registered (listen ρ server ms).1 h := by
  induction ms generalizing ρ server with
  | nil => exact hs
  | cons m ms ih =>
    have hm : Msg.accept h ≠ m := fun heq => hms (heq ▸ List.mem_cons_self _ _)
    have hrest : Msg.accept h ∉ ms := fun hmem => hms (List.mem_cons_of_mem _ hmem)
    refine ih _ _ ?_ hrest
    cases m with
    | accept s =>
      have hne : h ≠ s := fun heq => hm (heq ▸ rfl)
      simp only [registered, listenCase, ClientMap.mem_keys_set]
      rintro (heq | hmem)
      · exact hne heq
      · exact hs hmem
    | closing s =>
      simp only [registered, listenCase, ClientMap.mem_keys_delete]
      exact fun hmem => hs hmem.2
    | notifier event => exact hs

theorem newEventServer_wellFormed : NewEventServer.clients.WellFormed :=
  ⟨List.nodup_nil, fun _ h => absurd h (List.not_mem_nil _)⟩

/-- The loop over `a ++ b` is the loop over `a` followed by the loop over `b`. -/
theorem listen_append (ρ : Nat → RangeOrder) (server : EventServer) (a b : List Msg) :
    listen ρ server (a ++ b) =
      ((listen (fun n => ρ (n + a.length)) (listen ρ server a).1 b).1,
        (listen ρ server a).2 ++
          (listen (fun n => ρ (n + a.length)) (listen ρ server a).1 b).2) := by
  induction a generalizing ρ server with
  | nil => simp [listen]
  | cons m a ih =>
    have hρ : (fun n => ρ (n + a.length + 1)) = (fun n => ρ (n + (a.length + 1))) := by
      funext n
      rfl
    show listen ρ server (m :: (a ++ b)) = _
    simp only [listen, List.length_cons]
    rw [ih]
    simp only [List.append_assoc, hρ]

/-- The key set of the map follows the specification's set operations. -/
theorem listenCase_keys (ρ : RangeOrder) (server : EventServer) (m : Msg) :
    (listenCase ρ server m).1.clients.keys.toFinset =
      specRegistry server.clients.keys.toFinset m := by
  cases m with
  | accept s =>
    ext h
    simp [listenCase, specRegistry, ClientMap.mem_keys_set]
  | closing s =>
    ext h
    simp only [listenCase, specRegistry, List.mem_toFinset, ClientMap.mem_keys_delete,
      Finset.mem_erase]
  | notifier event => rfl

theorem listen_keys (ρ : Nat → RangeOrder) (server : EventServer) (ms : List Msg) :
    (listen ρ server ms).1.clients.keys.toFinset =
      ms.foldl specRegistry server.clients.keys.toFinset := by
  induction ms generalizing ρ server with
  | nil => rfl
  | cons m ms ih =>
    simp only [listen, List.foldl_cons]
    rw [ih, listenCase_keys]

theorem sentTo_append (h : Handle) (a b : List Delivery) :
    sentTo h (a ++ b) = sentTo h a ++ sentTo h b := by
  simp [sentTo]

/-- What one fan-out puts on the channel `h`: the event once if `h` is a key. -/
theorem sentTo_fanout (order : List Handle) (hnd : order.Nodup) (h : Handle) (e : Event) :
    sentTo h (order.map (fun client => (client, e))) = if h ∈ order then [e] else [] := by
  induction order with
  | nil => simp [sentTo]
  | cons c rest ih =>
    obtain ⟨hc, hrest⟩ := List.nodup_cons.mp hnd
    have ih := ih hrest
    simp only [sentTo, List.map_cons, List.filter_cons] at ih ⊢
    by_cases hch : c = h
    · subst hch
      simp only [beq_self_eq_true, if_true, List.map_cons, List.mem_cons, true_or]
      rw [ih, if_neg hc]
    · have hne : (c == h) = false := by simpa using hch
      have : (h = c ∨ h ∈ rest) ↔ h ∈ rest := by
        constructor
        · rintro (heq | hmem)
          · exact absurd heq.symm hch
          · exact hmem
        · exact Or.inr
      simp only [hne, List.mem_cons, Bool.false_eq_true, if_false, this]
      exact ih

theorem visit_nodup (ρ : RangeOrder) (m : ClientMap) (hm : m.keys.Nodup) :
    (ρ.visit m).Nodup := (ρ.perm m).nodup_iff.mpr hm

theorem mem_visit (ρ : RangeOrder) (m : ClientMap) (h : Handle) :
    h ∈ ρ.visit m ↔ h ∈ m.keys := (ρ.perm m).mem_iff

/-- How often one fan-out sends the event on the channel `h`. -/
theorem count_fanout (order : List Handle) (hnd : order.Nodup) (h : Handle) (e : Event) :
    (order.map (fun client => ((client, e) : Delivery))).count (h, e) =
      if h ∈ order then 1 else 0 := by
  induction order with
  | nil => simp
  | cons c rest ih =>
    obtain ⟨hc, hrest⟩ := List.nodup_cons.mp hnd
    rw [List.map_cons, List.count_cons, ih hrest]
    by_cases hch : c = h
    · subst hch
      simp [hc]
    · have hne : ¬ h = c := fun hh => hch hh.symm
      by_cases hmem : h ∈ rest <;> simp [hch, hne, hmem]

/-- Every send of the loop carries a payload that some Publish message of the input held. -/
theorem mem_log_listen (ρ : Nat → RangeOrder) (server : EventServer) (ms : List Msg)
    (d : Delivery) (hd : d ∈ (listen ρ server ms).2) : Msg.notifier d.2 ∈ ms := by
  induction ms generalizing ρ server with
  | nil => simp [listen] at hd
  | cons m ms ih =>
    simp only [listen, List.mem_append] at hd
    rcases hd with hd | hd
    · cases m with
      | accept s => simp [listenCase] at hd
      | closing s => simp [listenCase] at hd
      | notifier event =>
        simp only [listenCase, List.mem_map] at hd
        obtain ⟨c, _, rfl⟩ := hd
        exact List.mem_cons_self _ _
    · exact List.mem_cons_of_mem _ (ih _ _ hd)

/-- The queue of `h` is what the specification prescribes, from any state. -/
theorem sentTo_listen (ρ : Nat → RangeOrder) (server : EventServer) (ms : List Msg)
    (hs : server.clients.keys.Nodup) (h : Handle) :
    sentTo h (listen ρ server ms).2 = specQueue h (decide (registered server h)) ms := by
  induction ms generalizing ρ server with
  | nil => simp [listen, sentTo, specQueue]
  | cons m ms ih =>
    simp only [listen, sentTo_append]
    rw [ih _ _ (listenCase_nodup (ρ 0) server m hs)]
    cases m with
    | accept s =>
      simp only [listenCase, specQueue, sentTo, List.filter_nil, List.map_nil, List.nil_append]
      congr 1
      simp only [registered, ClientMap.mem_keys_set]
      by_cases h1 : h ∈ server.clients.keys <;> by_cases h2 : s = h
      · simp [h1, h2]
      · have e1 : (s == h) = false := by simpa using h2
        have e2 : decide (h = s) = false := by simpa using fun hh : h = s => h2 hh.symm
        simp [h1, e1, e2, bne]
      · simp [h1, h2]
      · have e1 : (s == h) = false := by simpa using h2
        have e2 : decide (h = s) = false := by simpa using fun hh : h = s => h2 hh.symm
        simp [h1, e1, e2, bne]
    | closing s =>
      simp only [listenCase, specQueue, sentTo, List.filter_nil, List.map_nil, List.nil_append]
      congr 1
      simp only [registered, ClientMap.mem_keys_delete]
      by_cases h1 : h ∈ server.clients.keys <;> by_cases h2 : s = h
      · simp [h1, h2]
      · have e1 : (s == h) = false := by simpa using h2
        have e2 : decide (h = s) = false := by simpa using fun hh : h = s => h2 hh.symm
        simp [h1, e1, e2, bne]
      · simp [h1, h2]
      · have e1 : (s == h) = false := by simpa using h2
        have e2 : decide (h = s) = false := by simpa using fun hh : h = s => h2 hh.symm
        simp [h1, e1, e2, bne]
    | notifier event =>
      simp only [listenCase, specQueue]
      rw [sentTo_fanout _ (visit_nodup (ρ 0) _ hs)]
      by_cases h1 : h ∈ server.clients.keys
      · have h2 : h ∈ (ρ 0).visit server.clients := (mem_visit _ _ _).mpr h1
        simp [registered, h1, h2]
      · have h2 : h ∉ (ρ 0).visit server.clients := fun hm => h1 ((mem_visit _ _ _).mp hm)
        simp [registered, h1, h2]

/-! ## Lemmas on the blocking sends -/

/-- When every pending client receives in turn, the `range` loop runs to its end. -/
theorem hubRun_recv_all (hub : Hub) (e : Event) (pending : List Handle)
    (hpc : hub.pc = HubPc.loop e pending) :
    hubRun hub (pending.map Comm.recv) =
      some { hub with pc := HubPc.select,
                      sent := hub.sent ++ pending.map (fun c => (c, e)) } := by
  induction pending generalizing hub with
  | nil =>
    obtain ⟨server, pc, notifier, sent⟩ := hub
    simp only [HubPc.loop] at hpc
    subst hpc
    simp [hubRun]
  | cons c rest ih =>
    obtain ⟨server, pc, notifier, sent⟩ := hub
    simp only [HubPc.loop] at hpc
    subst hpc
    simp only [List.map_cons, hubRun, hubComm, if_true]
    rw [ih _ rfl]
    simp

/-- While a pending client does not receive, the hub stays in the `range` loop: it has
served a front part of the pending handles, stands blocked before the rest, and has taken
part in nothing but receives and buffer fills. -/
theorem hubRun_blocked (cs : List Comm) (hub hub' : Hub) (e : Event) (pending : List Handle)
    (h : Handle) (hpc : hub.pc = HubPc.send e pending) (hh : h ∈ pending)
    (hstall : Comm.recv h ∉ cs) (hrun : hubRun hub cs = some hub') :
    (∃ served rest : List Handle, pending = served ++ rest ∧ h ∈ rest ∧ h ∉ served ∧
        hub'.pc = HubPc.send e rest ∧
        hub'.sent = hub.sent ++ served.map (fun c => (c, e))) ∧
      hub'.server = hub.server ∧ (∀ c ∈ cs, c.duringFanout = true) := by
  induction cs generalizing hub pending with
  | nil =>
    simp only [hubRun, Option.some.injEq] at hrun
    subst hrun
    exact ⟨⟨[], pending, rfl, hh, List.not_mem_nil _, hpc, by simp⟩, rfl,
      fun c hc => absurd hc (List.not_mem_nil _)⟩
  | cons c cs ih =>
    have hc : Comm.recv h ≠ c := fun heq => hstall (heq ▸ List.mem_cons_self _ _)
    have hcs : Comm.recv h ∉ cs := fun hmem => hstall (List.mem_cons_of_mem _ hmem)
    obtain ⟨server, pc, notifier, sent⟩ := hub
    simp only at hpc
    subst hpc
    cases c with
    | accept s => simp [hubRun, hubComm] at hrun
    | closing s => simp [hubRun, hubComm] at hrun
    | notify order => simp [hubRun, hubComm] at hrun
    | publish event =>
      simp only [hubRun, hubComm] at hrun
      split at hrun
      · rename_i next hnext
        split at hnext
        · simp only [Option.some.injEq] at hnext
          subst hnext
          obtain ⟨hex, hserver, hall⟩ := ih _ pending rfl hh hcs hrun
          refine ⟨hex, hserver, ?_⟩
          intro c hc
          rcases List.mem_cons.mp hc with rfl | hc
          · rfl
          · exact hall c hc
        · exact absurd hnext (by simp)
      · exact absurd hrun (by simp)
    | recv client =>
      cases pending with
      | nil => exact absurd hh (List.not_mem_nil _)
      | cons first rest =>
        simp only [hubRun, hubComm] at hrun
        by_cases hfc : first = client
        · subst hfc
          simp only [if_true] at hrun
          have hne : h ≠ first := fun heq => hc (heq ▸ rfl)
          have hrest : h ∈ rest := by
            rcases List.mem_cons.mp hh with heq | hmem
            · exact absurd heq hne
            · exact hmem
          cases rest with
          | nil => exact absurd hrest (List.not_mem_nil _)
          | cons second rest =>
            simp only [HubPc.loop] at hrun
            obtain ⟨⟨served, left, hsplit, hleft, hserved, hpc', hsent⟩, hserver, hall⟩ :=
              ih _ (second :: rest) rfl hrest hcs hrun
            refine ⟨⟨first :: served, left, ?_, hleft, ?_, hpc', ?_⟩, hserver, ?_⟩
            · rw [hsplit]
              rfl
            · intro hmem
              rcases List.mem_cons.mp hmem with heq | hmem
              · exact hne heq
              · exact hserved hmem
            · rw [hsent]
              simp
            · intro c hc
              rcases List.mem_cons.mp hc with rfl | hc
              · rfl
              · exact hall c hc
        · simp [hfc] at hrun

/-- The communications of one message, every receiver ready, take the hub from `select`
to `select` with the map and the sends of `listenCase`. -/
theorem hubRun_commsOf (ρ : RangeOrder) (server : EventServer) (sent : List Delivery)
    (m : Msg) :
    hubRun { server := server, pc := HubPc.select, notifier := [], sent := sent }
        (commsOf ρ server m) =
      some { server := (listenCase ρ server m).1, pc := HubPc.select, notifier := [],
             sent := sent ++ (listenCase ρ server m).2 } := by
  cases m with
  | accept s => simp [commsOf, hubRun, hubComm, listenCase]
  | closing s => simp [commsOf, hubRun, hubComm, listenCase]
  | notifier event =>
    simp only [commsOf, hubRun, hubComm, List.length_nil, Nat.lt_one_iff, if_true,
      List.nil_append, ρ.perm server.clients, listenCase]
    rw [hubRun_recv_all _ event _ rfl]

/-- While the hub takes part in nothing but receives and buffer fills, a fan-out of `e`
with `pending` left has served a front part of `pending`, once each in order, and stands
before the rest; the map is untouched. -/
theorem hubRun_fanout (cs : List Comm) (hub hub' : Hub) (e : Event) (pending : List Handle)
    (hpc : hub.pc = HubPc.loop e pending) (hfan : ∀ c ∈ cs, c.duringFanout = true)
    (hrun : hubRun hub cs = some hub') :
    ∃ served rest : List Handle, pending = served ++ rest ∧
      hub'.pc = HubPc.loop e rest ∧
      hub'.sent = hub.sent ++ served.map (fun c => (c, e)) ∧
      hub'.server = hub.server := by
  induction cs generalizing hub pending with
  | nil =>
    simp only [hubRun, Option.some.injEq] at hrun
    subst hrun
    exact ⟨[], pending, rfl, hpc, by simp, rfl⟩
  | cons c cs ih =>
    have hc : c.duringFanout = true := hfan c (List.mem_cons_self _ _)
    have hcs : ∀ c' ∈ cs, c'.duringFanout = true :=
      fun c' hc' => hfan c' (List.mem_cons_of_mem _ hc')
    obtain ⟨server, pc, notifier, sent⟩ := hub
    simp only at hpc
    subst hpc
    cases c with
    | accept s => simp [Comm.duringFanout] at hc
    | closing s => simp [Comm.duringFanout] at hc
    | notify order => simp [Comm.duringFanout] at hc
    | publish event =>
      simp only [hubRun, hubComm] at hrun
      split at hrun
      · rename_i next hnext
        split at hnext
        · simp only [Option.some.injEq] at hnext
          subst hnext
          exact ih { server := server, pc := HubPc.loop e pending,
                     notifier := notifier ++ [event], sent := sent } pending rfl hcs hrun
        · exact absurd hnext (by simp)
      · exact absurd hrun (by simp)
    | recv client =>
      cases pending with
      | nil => simp [hubRun, hubComm, HubPc.loop] at hrun
      | cons first rest =>
        simp only [hubRun, hubComm, HubPc.loop] at hrun
        by_cases hfc : first = client
        · subst hfc
          simp only [if_true] at hrun
          obtain ⟨served, left, hsplit, hpc', hsent, hserver⟩ := ih _ rest rfl hcs hrun
          refine ⟨first :: served, left, ?_, hpc', ?_, hserver⟩
          · rw [hsplit]
            rfl
          · rw [hsent]
            simp
        · simp [hfc] at hrun

/-! ## Lemmas on the order of `notifier` -/

theorem published_append (a b : List Comm) : published (a ++ b) = published a ++ published b := by
  induction a with
  | nil => rfl
  | cons c a ih => cases c <;> simp [published, ih]

/-- The invariant in the form the loop exit needs: after the fan-out of `e` has `pending`
left, whatever `pending` is. -/
theorem fifoInv_loop (h : Handle) (server : EventServer) (notifier : List Event)
    (sent : List Delivery) (e : Event) (pending : List Handle) (before : List Event)
    (hkeys : server.clients.keys.Nodup) (hnd : pending.Nodup)
    (hsub : (sentTo h sent).Sublist (if h ∈ pending then before else before ++ [e])) :
    FifoInv h { server := server, pc := HubPc.loop e pending, notifier := notifier,
                sent := sent } ((before ++ [e]) ++ notifier) := by
  refine ⟨hkeys, before ++ [e], rfl, ?_⟩
  cases pending with
  | nil => simpa [HubPc.loop] using hsub
  | cons c rest => exact ⟨hnd, before, rfl, hsub⟩

/-- One communication keeps the invariant. -/
theorem fifoInv_comm (h : Handle) (hub next : Hub) (past : List Event) (c : Comm)
    (hinv : FifoInv h hub past) (hstep : hubComm hub c = some next) :
    FifoInv h next (past ++ published [c]) := by
  obtain ⟨server, pc, notifier, sent⟩ := hub
  obtain ⟨hkeys, taken, hpast, hpc⟩ := hinv
  simp only at hkeys hpast hpc
  cases c with
  | accept s =>
    cases pc with
    | select =>
      simp only [hubComm, Option.some.injEq] at hstep
      subst hstep
      exact ⟨ClientMap.nodup_set _ s true hkeys, taken, by simpa [published] using hpast, hpc⟩
    | send e pending => simp [hubComm] at hstep
  | closing s =>
    cases pc with
    | select =>
      simp only [hubComm, Option.some.injEq] at hstep
      subst hstep
      exact ⟨ClientMap.nodup_delete _ s hkeys, taken, by simpa [published] using hpast, hpc⟩
    | send e pending => simp [hubComm] at hstep
  | publish event =>
    simp only [hubComm] at hstep
    split at hstep
    · simp only [Option.some.injEq] at hstep
      subst hstep
      exact ⟨hkeys, taken, by simp [published, hpast], hpc⟩
    · exact absurd hstep (by simp)
  | notify order =>
    cases pc with
    | send e pending => simp [hubComm] at hstep
    | select =>
      cases notifier with
      | nil => simp [hubComm] at hstep
      | cons event rest =>
        simp only [hubComm] at hstep
        split at hstep
        · rename_i hperm
          simp only [Option.some.injEq] at hstep
          subst hstep
          have hnd : order.Nodup := hperm.nodup_iff.mpr hkeys
          have hgoal := fifoInv_loop h server rest sent event order taken hkeys hnd (by
            split
            · exact hpc
            · exact hpc.trans (List.sublist_append_left _ _))
          simpa [published, hpast] using hgoal
        · exact absurd hstep (by simp)
  | recv client =>
    cases pc with
    | select => simp [hubComm] at hstep
    | send e pending =>
      cases pending with
      | nil => simp [hubComm] at hstep
      | cons first rest =>
        simp only [hubComm] at hstep
        split at hstep
        · rename_i hfirst
          subst hfirst
          simp only [Option.some.injEq] at hstep
          subst hstep
          obtain ⟨hnd, before, htaken, hsub⟩ := hpc
          obtain ⟨hfirst, hrest⟩ := List.nodup_cons.mp hnd
          have hsent : sentTo h (sent ++ [(first, e)]) =
              sentTo h sent ++ (if first = h then [e] else []) := by
            rw [sentTo_append]
            by_cases hfh : first = h
            · simp [sentTo, hfh]
            · have : (first == h) = false := by simpa using hfh
              simp [sentTo, hfh, this]
          have hgoal := fifoInv_loop h server notifier (sent ++ [(first, e)]) e rest before
            hkeys hrest (by
              rw [hsent]
              by_cases hfh : first = h
              · subst hfh
                simp only [List.mem_cons, true_or, if_true] at hsub ⊢
                rw [if_neg hfirst]
                exact List.Sublist.append hsub (List.Sublist.refl _)
              · have hmem : (h ∈ first :: rest) ↔ h ∈ rest := by
                  constructor
                  · intro hm
                    rcases List.mem_cons.mp hm with hh | hm
                    · exact absurd hh.symm hfh
                    · exact hm
                  · exact List.mem_cons_of_mem _
                simp only [hmem] at hsub
                simp only [hfh, if_false, List.append_nil]
                rw [← htaken]
                exact hsub)
          simpa [published, hpast, htaken] using hgoal
        · exact absurd hstep (by simp)

/-- Every run keeps the invariant. -/
theorem fifoInv_run (h : Handle) (cs : List Comm) (hub hub' : Hub) (past : List Event)
    (hinv : FifoInv h hub past) (hrun : hubRun hub cs = some hub') :
    FifoInv h hub' (past ++ published cs) := by
  induction cs generalizing hub past with
  | nil =>
    simp only [hubRun, Option.some.injEq] at hrun
    subst hrun
    simpa [published] using hinv
  | cons c cs ih =>
    simp only [hubRun] at hrun
    split at hrun
    · rename_i next hnext
      have := ih next (past ++ published [c]) (fifoInv_comm h hub next past c hinv hnext) hrun
      have happ : published (c :: cs) = published [c] ++ published cs :=
        published_append [c] cs
      rw [happ, ← List.append_assoc]
      exact this
    · exact absurd hrun (by simp)

/-- The events sent on `h` are a subsequence of the payloads put on `notifier`. -/
theorem fifoInv_sublist (h : Handle) (hub : Hub) (past : List Event)
    (hinv : FifoInv h hub past) : (sentTo h hub.sent).Sublist past := by
  obtain ⟨server, pc, notifier, sent⟩ := hub
  obtain ⟨_, taken, hpast, hpc⟩ := hinv
  simp only at hpast hpc
  have htaken : (sentTo h sent).Sublist taken := by
    cases pc with
    | select => exact hpc
    | send e pending =>
      obtain ⟨_, before, hb, hsub⟩ := hpc
      split at hsub
      · rw [hb]
        exact hsub.trans (List.sublist_append_left _ _)
      · exact hsub
  rw [hpast]
  exact htaken.trans (List.sublist_append_left _ _)

theorem fifoInv_new (h : Handle) : FifoInv h Hub.new [] :=
  ⟨List.nodup_nil, [], rfl, List.Sublist.refl _⟩

/-! ## Lemmas on the session -/

theorem Session.run_cons (s : Session) (i : Input) (inputs : List Input) :
    s.run (i :: inputs) = (s.step i).run inputs := rfl

theorem Session.step_client (s : Session) (i : Input) : (s.step i).client = s.client := by
  cases i with
  | event e o =>
    cases hh : s.handler <;> cases o <;> simp [Session.step, hh]
  | closeNotify =>
    cases hw : s.watcher <;> simp [Session.step, hw]

/-- The handler leaves the loop only by a panic. -/
theorem Session.run_reading (s : Session) (inputs : List Input)
    (hs : s.handler = HandlerPc.reading) (hp : inputs.any Input.panics = false) :
    (s.run inputs).handler = HandlerPc.reading := by
  induction inputs generalizing s with
  | nil => exact hs
  | cons i inputs ih =>
    simp only [List.any_cons, Bool.or_eq_false_iff] at hp
    rw [Session.run_cons]
    refine ih _ ?_ hp.2
    cases i with
    | event e o =>
      cases o with
      | ok => simp [Session.step, hs]
      | writeError => simp [Session.step, hs]
      | writePanic => simp [Input.panics] at hp
      | flushPanic => simp [Input.panics] at hp
    | closeNotify =>
      cases hw : s.watcher <;> simp [Session.step, hw, hs]

/-- The sends on `closing` of a run: one more when the handler, in the loop, meets a
panic, one more when the watcher, waiting, meets the close notification. -/
theorem Session.run_unregisterCount (s : Session) (inputs : List Input) :
    unregisterCount s.client (s.run inputs).trace =
      unregisterCount s.client s.trace +
        (if s.handler = HandlerPc.reading ∧ inputs.any Input.panics = true then 1 else 0) +
        (if s.watcher = WatcherPc.waiting ∧ Input.closeNotify ∈ inputs then 1 else 0) := by
  induction inputs generalizing s with
  | nil => simp [Session.run]
  | cons i inputs ih =>
    rw [Session.run_cons]
    have hcl := Session.step_client s i
    have ih := ih (s.step i)
    rw [hcl] at ih
    rw [ih]
    cases i with
    | event e o =>
      cases hh : s.handler <;> cases hw : s.watcher <;> cases o <;>
        simp [Session.step, hh, hw, unregisterCount, Input.panics, List.count_cons,
          List.count_append]
    | closeNotify =>
      cases hh : s.handler <;> cases hw : s.watcher <;>
        (simp [Session.step, hh, hw, unregisterCount, Input.panics, List.count_cons,
          List.count_append]; try omega)

/-- The trace of a handler that stays in the loop while its transport accepts every
write: one write and one flush per event. -/
theorem Session.run_deliveredOk (s : Session) (events : List Event)
    (hs : s.handler = HandlerPc.reading) :
    (s.run (deliveredOk events)).trace =
      s.trace ++ (events.map (fun p => [Effect.write (Fprintf p), Effect.flush])).flatten := by
  induction events generalizing s with
  | nil => simp [deliveredOk, Session.run]
  | cons p events ih =>
    have hstep : (s.step (Input.event p Outcome.ok)).handler = HandlerPc.reading := by
      simp [Session.step, hs]
    have := ih (s.step (Input.event p Outcome.ok)) hstep
    simp only [deliveredOk, List.map_cons, Session.run_cons] at this ⊢
    rw [this]
    simp [Session.step, hs]

theorem frames_append (a b : List Effect) : frames (a ++ b) = frames a ++ frames b := by
  induction a with
  | nil => rfl
  | cons x a ih => cases x <;> simp [frames, ih]

theorem frames_writes (events : List Event) :
    frames (events.map (fun p => [Effect.write (Fprintf p), Effect.flush])).flatten =
      events.map Fprintf := by
  induction events with
  | nil => rfl
  | cons p events ih => simp [frames, ih]

/-! ## The hub: fan-out, registration, order -/

/-- C1 fails on the code: in the hub state with handles 1 and 2 registered and `x` taken
from `notifier`, the fan-out visiting 1 first, no run in which handle 1 does not receive
ever sends `x` to the registered handle 2. -/
theorem publish_fanout_exact_counterexample :
    registered twoClientHub.server 2 ∧
      (¬ ∃ (cs : List Comm) (hub' : Hub), Comm.recv 1 ∉ cs ∧
        hubRun twoClientHub (Comm.notify [1, 2] :: cs) = some hub' ∧
        hub'.sent.count ((2 : Handle), xEvent) = 1) := by
  refine ⟨by decide, ?_⟩
  have hstart : hubComm twoClientHub (Comm.notify [1, 2]) =
      some { server := { clients := [(1, true), (2, true)] },
             pc := HubPc.send xEvent [1, 2], notifier := [], sent := [] } := by
    decide
  rintro ⟨cs, hub', hstall, hrun, hcount⟩
  simp only [hubRun, hstart] at hrun
  obtain ⟨⟨served, rest, hsplit, hrest, hserved, _, hsent⟩, _, _⟩ :=
    hubRun_blocked cs _ hub' xEvent [1, 2] 1 rfl (by decide) hstall hrun
  have hnil : served = [] := by
    cases served with
    | nil => rfl
    | cons a tl =>
      have ha : a = 1 := by
        have := congrArg List.head? hsplit
        simpa using this.symm
      exact absurd (ha ▸ List.mem_cons_self a tl) hserved
  rw [hsent, hnil] at hcount
  simp at hcount

/-- C1 as the code has it. In every hub state (a map, no key with two entries) in which the
hub takes `e` from `notifier`, and at every point of the fan-out that follows, the hub has
sent nothing but `e`, to a front part of the range order: at most once to each registered
handle, to no other handle, the map unchanged; and once the hub is back in `select` it has
sent `e` exactly once to each registered handle. With every send completed (`listenCase`)
the message leaves the map alone and sends `e` exactly once on each registered handle and
on no other, which the communications of `commsOf` realise; and over
`pre ++ Publish(e) :: post`, every fan-out completed, a handle not registered at that
moment (registered only later, or unregistered before) never receives `e`, no other
message of the sequence publishing `e`. -/
theorem publish_reaches_registered_at_most_once (ρ : Nat → RangeOrder) (server : EventServer)
    (hmap : server.clients.keys.Nodup) (pre post : List Msg) (e : Event) (h : Handle) :
    (∀ (hub hub' : Hub) (buffer : List Event) (order : List Handle) (cs : List Comm),
        hub.pc = HubPc.select → hub.notifier = e :: buffer →
        hub.server.clients.keys.Nodup → (∀ c ∈ cs, c.duringFanout = true) →
        hubRun hub (Comm.notify order :: cs) = some hub' →
        hub'.server = hub.server ∧
          ∃ served rest : List Handle, order = served ++ rest ∧
            hub'.pc = HubPc.loop e rest ∧
            hub'.sent = hub.sent ++ served.map (fun c => (c, e)) ∧
            (served.map (fun c => ((c, e) : Delivery))).count (h, e) =
              (if h ∈ served then 1 else 0) ∧
            (h ∈ served → registered hub.server h) ∧
            (hub'.pc = HubPc.select →
              (served.map (fun c => ((c, e) : Delivery))).count (h, e) =
                (if registered hub.server h then 1 else 0))) ∧
      (listenCase (ρ pre.length) (listen ρ server pre).1 (Msg.notifier e)).1 =
        (listen ρ server pre).1 ∧
      (∀ d ∈ (listenCase (ρ pre.length) (listen ρ server pre).1 (Msg.notifier e)).2,
        d.2 = e) ∧
      (listenCase (ρ pre.length) (listen ρ server pre).1 (Msg.notifier e)).2.count (h, e) =
        (if registered (listen ρ server pre).1 h then 1 else 0) ∧
      hubRun { server := (listen ρ server pre).1, pc := HubPc.select, notifier := [],
               sent := (listen ρ server pre).2 }
          (commsOf (ρ pre.length) (listen ρ server pre).1 (Msg.notifier e)) =
        some { server := (listen ρ server pre).1, pc := HubPc.select, notifier := [],
               sent := (listen ρ server pre).2 ++
                 (listenCase (ρ pre.length) (listen ρ server pre).1 (Msg.notifier e)).2 } ∧
      (¬ registered (listen ρ server pre).1 h → Msg.notifier e ∉ pre ++ post →
        (h, e) ∉ (listen ρ server (pre ++ Msg.notifier e :: post)).2) := by
  refine ⟨?_, rfl, ?_, ?_, hubRun_commsOf _ _ _ _, ?_⟩
  · intro hub hub' buffer order cs hpc hbuf hkeys hfan hrun
    obtain ⟨srv, pc, notifier, sent⟩ := hub
    simp only at hpc hbuf hkeys
    subst hpc
    subst hbuf
    simp only [hubRun, hubComm] at hrun
    by_cases hperm : order.Perm srv.clients.keys
    · simp only [hperm, if_true] at hrun
      obtain ⟨served, rest, hsplit, hpc', hsent, hserver⟩ :=
        hubRun_fanout cs _ hub' e order rfl hfan hrun
      have hnd : order.Nodup := hperm.nodup_iff.mpr hkeys
      have hsnd : served.Nodup := by
        rw [hsplit] at hnd
        exact (List.nodup_append.mp hnd).1
      have hcount := count_fanout served hsnd h e
      refine ⟨hserver, served, rest, hsplit, hpc', hsent, hcount, ?_, ?_⟩
      · intro hs
        exact hperm.mem_iff.mp (hsplit ▸ List.mem_append_left _ hs)
      · intro hsel
        have hrest : rest = [] := by
          cases rest with
          | nil => rfl
          | cons a tl =>
            rw [hsel] at hpc'
            simp [HubPc.loop] at hpc'
        rw [hcount]
        have hiff : h ∈ served ↔ registered srv h := by
          rw [hrest, List.append_nil] at hsplit
          rw [← hsplit]
          exact hperm.mem_iff
        by_cases hreg : registered srv h
        · rw [if_pos hreg, if_pos (hiff.mpr hreg)]
        · rw [if_neg hreg, if_neg (fun hs => hreg (hiff.mp hs))]
    · simp [hperm] at hrun
  · intro d hd
    simp only [listenCase, List.mem_map] at hd
    obtain ⟨c, _, rfl⟩ := hd
    rfl
  · have hnd := listen_nodup ρ server pre hmap
    simp only [listenCase]
    rw [count_fanout _ (visit_nodup _ _ hnd)]
    simp only [registered, mem_visit]
  · intro hreg hno hmem
    rw [listen_append] at hmem
    simp only [listen, List.mem_append, Nat.zero_add] at hmem
    rcases hmem with hmem | hmem | hmem
    · exact hno (List.mem_append_left _ (mem_log_listen _ _ _ _ hmem))
    · simp only [listenCase, List.mem_map] at hmem
      obtain ⟨c, hc, hce⟩ := hmem
      have hch : c = h := (Prod.mk.inj hce).1
      subst hch
      exact hreg ((mem_visit _ _ _).mp hc)
    · exact hno (List.mem_append_right _ (mem_log_listen _ _ _ _ hmem))

/-- C1 as the code has it, at concrete runs. With handles 1 and 2 registered and range
order 2 then 1, handle 2 receives `x` and handle 1 does not yet: the hub has sent `x` once
to a front part of the order and stands before the rest. And in the run where handles 1
and 2 register, 1 unregisters, `x` is published to the registry holding 2, and 3
registers, handle 1 never receives `x`. -/
theorem publish_reaches_registered_at_most_once_witness :
    (halfServedHub.server = twoClientHub.server ∧
      ∃ served rest : List Handle, [2, 1] = served ++ rest ∧
        halfServedHub.pc = HubPc.loop xEvent rest ∧
        halfServedHub.sent =
          twoClientHub.sent ++ served.map (fun c => (c, xEvent)) ∧
        (served.map (fun c => ((c, xEvent) : Delivery))).count (2, xEvent) =
          (if (2 : Handle) ∈ served then 1 else 0) ∧
        ((2 : Handle) ∈ served → registered twoClientHub.server 2) ∧
        (halfServedHub.pc = HubPc.select →
          (served.map (fun c => ((c, xEvent) : Delivery))).count (2, xEvent) =
            (if registered twoClientHub.server 2 then 1 else 0))) ∧
      ((1 : Handle), xEvent) ∉
        (listen entryOrder NewEventServer
          ([Msg.accept 1, Msg.accept 2, Msg.closing 1] ++
            Msg.notifier xEvent :: [Msg.accept 3])).2 :=
  ⟨(publish_reaches_registered_at_most_once entryOrder NewEventServer List.nodup_nil
      [] [] xEvent 2).1 twoClientHub
      halfServedHub [] [2, 1] [Comm.recv 2] rfl rfl (by decide) (by decide) (by decide),
    (publish_reaches_registered_at_most_once entryOrder NewEventServer List.nodup_nil
      [Msg.accept 1, Msg.accept 2, Msg.closing 1] [Msg.accept 3] xEvent 1).2.2.2.2.2
      (by decide) (by decide)⟩

/-- C2: after any sequence of messages processed from the empty map of `NewEventServer`,
the key set of the map is the left fold of the sequence with Register as set insertion
and Unregister as set removal; no handle has two entries and `len` counts the set;
registering a registered handle leaves the map unchanged; a handle whose last
Register/Unregister message is Unregister is absent. -/
theorem registry_is_fold (ρ : Nat → RangeOrder) (ms : List Msg) :
    (listen ρ NewEventServer ms).1.clients.keys.toFinset = ms.foldl specRegistry ∅ ∧
      (listen ρ NewEventServer ms).1.clients.keys.Nodup ∧
      (listen ρ NewEventServer ms).1.clients.len = (ms.foldl specRegistry ∅).card ∧
      (∀ (ρ' : RangeOrder) (h : Handle), registered (listen ρ NewEventServer ms).1 h →
        (listenCase ρ' (listen ρ NewEventServer ms).1 (Msg.accept h)).1 =
          (listen ρ NewEventServer ms).1) ∧
      (∀ (pre post : List Msg) (h : Handle), ms = pre ++ Msg.closing h :: post →
        Msg.accept h ∉ post → ¬ registered (listen ρ NewEventServer ms).1 h) := by
  have hkeys : (listen ρ NewEventServer ms).1.clients.keys.toFinset =
      ms.foldl specRegistry ∅ := listen_keys ρ NewEventServer ms
  have hnd := listen_nodup ρ NewEventServer ms List.nodup_nil
  have hwf := listen_wellFormed ρ NewEventServer ms newEventServer_wellFormed
  refine ⟨hkeys, hnd, ?_, ?_, ?_⟩
  · have hcard := List.toFinset_card_of_nodup hnd
    rw [hkeys] at hcard
    rw [hcard]
    simp [ClientMap.len, ClientMap.keys]
  · intro ρ' h hreg
    show ({ clients := ClientMap.set _ h true } : EventServer) = _
    rw [ClientMap.set_of_mem _ h hwf hreg]
  · intro pre post h hms hpost
    subst hms
    rw [listen_append]
    simp only [listen]
    refine not_registered_listen _ _ post h ?_ hpost
    simp only [registered, listenCase, ClientMap.mem_keys_delete]
    exact fun hmem => hmem.1 rfl

/-- C2, at a concrete run: handle 7 registers twice and unregisters once, then is absent. -/
theorem registry_is_fold_witness :
    ¬ registered (listen entryOrder NewEventServer
      [Msg.accept 7, Msg.accept 7, Msg.closing 7, Msg.accept 8]).1 7 :=
  (registry_is_fold entryOrder
    [Msg.accept 7, Msg.accept 7, Msg.closing 7, Msg.accept 8]).2.2.2.2
    [Msg.accept 7, Msg.accept 7] [Msg.accept 8] 7 rfl (by decide)

/-- C3: in every hub state, processing `Unregister(h)` twice gives the map that processing
it once gives, and when `h` is not registered processing it leaves the map as it was. -/
theorem unregister_idempotent (ρ ρ' : RangeOrder) (server : EventServer) (h : Handle) :
    (listenCase ρ' (listenCase ρ server (Msg.closing h)).1 (Msg.closing h)).1 =
        (listenCase ρ server (Msg.closing h)).1 ∧
      (¬ registered server h → (listenCase ρ server (Msg.closing h)).1 = server) := by
  constructor
  · simp [listenCase, ClientMap.delete, List.filter_filter]
  · intro hreg
    show ({ clients := ClientMap.delete _ h } : EventServer) = _
    rw [ClientMap.delete_of_not_mem _ h hreg]

/-- C3, at a concrete state: unregistering the absent handle 3 from a map holding 1 and 2
leaves it as it was. -/
theorem unregister_idempotent_witness :
    (listenCase RangeOrder.inOrder { clients := [(1, true), (2, true)] }
      (Msg.closing 3)).1 = { clients := [(1, true), (2, true)] } :=
  (unregister_idempotent RangeOrder.inOrder RangeOrder.backwards
    { clients := [(1, true), (2, true)] } 3).2 (by decide)

/-- C4: over any message sequence from `NewEventServer`, the events sent on the channel of
`h` are, in order, the payloads of the Publish messages processed while `h` was registered;
when `h` is registered at both `Publish(E1)` and a later `Publish(E2)`, its channel
carries `E1` before `E2`; and in every run of channel communications from the new hub the
events sent on `h` are, in order, among the payloads that calls of `Publish` put on
`notifier`, in the order they put them. -/
theorem delivery_follows_publish_order (ρ : Nat → RangeOrder) (ms : List Msg) (h : Handle) :
    sentTo h (listen ρ NewEventServer ms).2 = specQueue h false ms ∧
      (∀ (a b c : List Msg) (E1 E2 : Event),
        ms = a ++ Msg.notifier E1 :: (b ++ Msg.notifier E2 :: c) →
        registered (listen ρ NewEventServer a).1 h →
        registered (listen ρ NewEventServer (a ++ Msg.notifier E1 :: b)).1 h →
        ∃ y z : List Event, sentTo h (listen ρ NewEventServer ms).2 =
          sentTo h (listen ρ NewEventServer a).2 ++ E1 :: (y ++ E2 :: z)) ∧
      (∀ (cs : List Comm) (hub' : Hub), hubRun Hub.new cs = some hub' →
        (sentTo h hub'.sent).Sublist (published cs)) := by
  refine ⟨?_, ?_, ?_⟩
  · rw [sentTo_listen ρ NewEventServer ms List.nodup_nil h]
    congr 1
  rotate_left
  · intro cs hub' hrun
    have hinv := fifoInv_run h cs Hub.new hub' [] (fifoInv_new h) hrun
    exact fifoInv_sublist h hub' _ hinv
  · intro a b c E1 E2 hms h1 h2
    subst hms
    have hnd1 := listen_nodup ρ NewEventServer a List.nodup_nil
    have hnd2 := listen_nodup ρ NewEventServer (a ++ Msg.notifier E1 :: b) List.nodup_nil
    have hsplit : a ++ Msg.notifier E1 :: (b ++ Msg.notifier E2 :: c) =
        (a ++ Msg.notifier E1 :: b) ++ Msg.notifier E2 :: c := by simp
    refine ⟨sentTo h (listen (fun n => ρ (n + 1 + a.length))
        (listen ρ NewEventServer a).1 b).2, sentTo h (listen (fun n => ρ (n + 1 +
        (a ++ Msg.notifier E1 :: b).length))
        (listen ρ NewEventServer (a ++ Msg.notifier E1 :: b)).1 c).2, ?_⟩
    rw [hsplit, listen_append ρ NewEventServer (a ++ Msg.notifier E1 :: b)]
    simp only [listen, sentTo_append]
    have e2 : sentTo h (listenCase (ρ (0 + (a ++ Msg.notifier E1 :: b).length))
        (listen ρ NewEventServer (a ++ Msg.notifier E1 :: b)).1 (Msg.notifier E2)).2 = [E2] := by
      simp only [listenCase]
      rw [sentTo_fanout _ (visit_nodup _ _ hnd2), if_pos ((mem_visit _ _ _).mpr h2)]
    rw [e2]
    rw [listen_append ρ NewEventServer a]
    simp only [listen, sentTo_append]
    have e1 : sentTo h (listenCase (ρ (0 + a.length))
        (listen ρ NewEventServer a).1 (Msg.notifier E1)).2 = [E1] := by
      simp only [listenCase]
      rw [sentTo_fanout _ (visit_nodup _ _ hnd1), if_pos ((mem_visit _ _ _).mpr h1)]
    rw [e1]
    simp only [List.append_assoc, List.singleton_append, List.cons_append, List.nil_append,
      List.length_append, List.length_cons]
    rfl

/-- C4, at a concrete run: handle 1 registers, `x` then `y` are published with handle 2
registering in between; the channel of handle 1 carries `x` before `y`. -/
theorem delivery_follows_publish_order_witness :
    ∃ y z : List Event,
      sentTo 1 (listen entryOrder NewEventServer
        [Msg.accept 1, Msg.notifier xEvent, Msg.accept 2, Msg.notifier yEvent]).2 =
        sentTo 1 (listen entryOrder NewEventServer [Msg.accept 1]).2 ++
          xEvent :: (y ++ yEvent :: z) :=
  (delivery_follows_publish_order entryOrder
    [Msg.accept 1, Msg.notifier xEvent, Msg.accept 2, Msg.notifier yEvent] 1).2.1
    [Msg.accept 1] [Msg.accept 2] [] xEvent yEvent rfl (by decide) (by decide)

/-! ## The hub and a client that does not read -/

/-- C7 fails on the code: with handles 1 and 2 registered and the fan-out of `x` visiting
1 first, no run in which handle 1 never receives brings the hub back to `select`, and none
delivers `x` to handle 2. -/
theorem stalled_client_blocks_counterexample :
    (¬ ∃ (cs : List Comm) (hub' : Hub), Comm.recv 1 ∉ cs ∧
        hubRun twoClientHub (Comm.notify [1, 2] :: cs) = some hub' ∧
        hub'.pc = HubPc.select) ∧
      (¬ ∃ (cs : List Comm) (hub' : Hub), Comm.recv 1 ∉ cs ∧
        hubRun twoClientHub (Comm.notify [1, 2] :: cs) = some hub' ∧
        ((2 : Handle), xEvent) ∈ hub'.sent) := by
  have hstart : hubComm twoClientHub (Comm.notify [1, 2]) =
      some { server := { clients := [(1, true), (2, true)] },
             pc := HubPc.send xEvent [1, 2], notifier := [], sent := [] } := by
    decide
  constructor
  · rintro ⟨cs, hub', hstall, hrun, hpc⟩
    simp only [hubRun, hstart] at hrun
    obtain ⟨⟨served, rest, _, _, _, hpc', _⟩, _, _⟩ :=
      hubRun_blocked cs _ hub' xEvent [1, 2] 1 rfl (by decide) hstall hrun
    rw [hpc] at hpc'
    exact absurd hpc' (by simp)
  · rintro ⟨cs, hub', hstall, hrun, hmem⟩
    simp only [hubRun, hstart] at hrun
    obtain ⟨⟨served, rest, hsplit, hrest, hserved, _, hsent⟩, _, _⟩ :=
      hubRun_blocked cs _ hub' xEvent [1, 2] 1 rfl (by decide) hstall hrun
    have hnil : served = [] := by
      cases served with
      | nil => rfl
      | cons a tl =>
        have ha : a = 1 := by
          have := congrArg List.head? hsplit
          simpa using this.symm
        exact absurd (ha ▸ List.mem_cons_self a tl) hserved
    rw [hsent, hnil] at hmem
    simp at hmem

/-- C7 as the code has it: when the hub takes `e` from `notifier` in `select` and the
registered handle `h` never receives, then in every run the hub is still inside the
fan-out loop, blocked before `h`: it has sent `e` to the handles the range order put
before `h` and to no others, the map is unchanged, and it has processed no Register,
Unregister or Publish since; and when every handle of the range order receives in turn,
the fan-out sends `e` to all of them and the hub is back in `select`. -/
theorem stalled_client_blocks_hub (hub hub' : Hub) (e : Event) (buffer : List Event)
    (order : List Handle) (h : Handle) (cs : List Comm)
    (hpc : hub.pc = HubPc.select) (hbuf : hub.notifier = e :: buffer)
    (hreg : registered hub.server h) (hstall : Comm.recv h ∉ cs)
    (hrun : hubRun hub (Comm.notify order :: cs) = some hub') :
    (∃ served rest : List Handle, order = served ++ rest ∧ h ∈ rest ∧ h ∉ served ∧
        hub'.pc = HubPc.send e rest ∧
        hub'.sent = hub.sent ++ served.map (fun c => (c, e))) ∧
      hub'.server = hub.server ∧ (∀ c ∈ cs, c.duringFanout = true) ∧
      hubRun hub (Comm.notify order :: order.map Comm.recv) =
        some { hub with notifier := buffer,
                        sent := hub.sent ++ order.map (fun c => (c, e)) } := by
  obtain ⟨server, pc, notifier, sent⟩ := hub
  simp only at hpc hbuf hreg
  subst hpc
  subst hbuf
  simp only [hubRun, hubComm] at hrun ⊢
  by_cases hperm : order.Perm server.clients.keys
  · simp only [hperm, if_true] at hrun ⊢
    have hh : h ∈ order := hperm.mem_iff.mpr hreg
    have hloop : HubPc.loop e order = HubPc.send e order := by
      cases order with
      | nil => exact absurd hh (List.not_mem_nil _)
      | cons a tl => rfl
    rw [hloop] at hrun
    obtain ⟨hex, hserver, hall⟩ := hubRun_blocked cs _ hub' e order h rfl hh hstall hrun
    refine ⟨hex, hserver, hall, ?_⟩
    rw [hubRun_recv_all _ e order rfl]
  · simp [hperm] at hrun

/-- C7 as the code has it, at a concrete run: handles 1 and 2 registered, range order
2 then 1, handle 1 never receives; handle 2 receives and a second Publish fills the
buffer. -/
theorem stalled_client_blocks_hub_witness :
    (∃ served rest : List Handle, [2, 1] = served ++ rest ∧ (1 : Handle) ∈ rest ∧
        1 ∉ served ∧
        ({ server := { clients := [(1, true), (2, true)] }, pc := HubPc.send xEvent [1],
           notifier := [yEvent], sent := [(2, xEvent)] } : Hub).pc = HubPc.send xEvent rest ∧
        ({ server := { clients := [(1, true), (2, true)] }, pc := HubPc.send xEvent [1],
           notifier := [yEvent], sent := [(2, xEvent)] } : Hub).sent =
          twoClientHub.sent ++ served.map (fun c => (c, xEvent))) :=
  (stalled_client_blocks_hub twoClientHub
    { server := { clients := [(1, true), (2, true)] }, pc := HubPc.send xEvent [1],
      notifier := [yEvent], sent := [(2, xEvent)] }
    xEvent [] [2, 1] 1 [Comm.recv 2, Comm.publish yEvent]
    rfl rfl (by decide) (by decide) (by decide)).1

/-! ## The session: frames, refusal, teardown -/

/-- C5: for every sequence of payloads delivered to a streaming session (with or without
a line break in them), the session writes for each payload `p` exactly the bytes of
`data: `, then `p`, then two line feeds, each write followed by one flush and nothing
else; and with only client A registered, `Publish("hello")` puts `hello` once on the
channel of A, whose session writes exactly the one frame `data: hello\n\n`. -/
theorem session_writes_data_frames (client : Handle) (events : List Event)
    (ρ : Nat → RangeOrder) :
    ((ServeHTTP streamingWriter client).run (deliveredOk events)).trace =
        (ServeHTTP streamingWriter client).trace ++
          (events.map (fun p =>
            [Effect.write ([100, 97, 116, 97, 58, 32] ++ p ++ [10, 10]),
              Effect.flush])).flatten ∧
      frames ((ServeHTTP streamingWriter client).run (deliveredOk events)).trace =
        events.map (fun p => goBytes "data: " ++ p ++ goBytes "\n\n") ∧
      sentTo client (listen ρ NewEventServer
          (submitted (ServeHTTP streamingWriter client).trace ++ [Publish "hello"])).2 =
        [goBytes "hello"] ∧
      frames ((ServeHTTP streamingWriter client).run (deliveredOk (sentTo client
          (listen ρ NewEventServer (submitted (ServeHTTP streamingWriter client).trace ++
            [Publish "hello"])).2))).trace = [goBytes "data: hello\n\n"] := by
  have hreading : (ServeHTTP streamingWriter client).handler = HandlerPc.reading := rfl
  have hstart : frames (ServeHTTP streamingWriter client).trace = [] := rfl
  have hsub : submitted (ServeHTTP streamingWriter client).trace = [Msg.accept client] := rfl
  have hsent : sentTo client (listen ρ NewEventServer
      (submitted (ServeHTTP streamingWriter client).trace ++ [Publish "hello"])).2 =
        [goBytes "hello"] := by
    rw [hsub, sentTo_listen ρ NewEventServer _ List.nodup_nil client]
    simp [specQueue, Publish]
  refine ⟨?_, ?_, hsent, ?_⟩
  · exact Session.run_deliveredOk _ events hreading
  · rw [Session.run_deliveredOk _ events hreading, frames_append, hstart, frames_writes]
    rfl
  · rw [hsent, Session.run_deliveredOk _ _ hreading, frames_append, hstart, frames_writes]
    rfl

/-- C6: when the response writer does not support flushing, whatever the environment
does afterwards, the session has performed exactly one operation, `http.Error` with the
body `Streaming unsupported` and the status 500, and has returned; it has sent nothing on
`accept` or `closing`, set no header, started no watcher, and a hub that processes what it
submitted keeps its map unchanged. -/
theorem unsupported_transport_refused (w : ResponseWriter) (client : Handle)
    (inputs : List Input) (ρ : Nat → RangeOrder) (server : EventServer)
    (hw : w.flusher = false) :
    ((ServeHTTP w client).run inputs).trace = [Effect.httpError "Streaming unsupported" 500] ∧
      ((ServeHTTP w client).run inputs).handler = HandlerPc.returned ∧
      ((ServeHTTP w client).run inputs).watcher = WatcherPc.absent ∧
      submitted ((ServeHTTP w client).run inputs).trace = [] ∧
      (∀ effect ∈ ((ServeHTTP w client).run inputs).trace, effect ∉ streamHeaders) ∧
      (listen ρ server (submitted ((ServeHTTP w client).run inputs).trace)).1 = server := by
  have hrun : (ServeHTTP w client).run inputs =
      { client := client, handler := HandlerPc.returned, watcher := WatcherPc.absent,
        trace := [Effect.httpError "Streaming unsupported" 500] } := by
    simp only [ServeHTTP, hw, if_true]
    induction inputs with
    | nil => rfl
    | cons i inputs ih =>
      rw [Session.run_cons]
      cases i <;> exact ih
  rw [hrun]
  refine ⟨rfl, rfl, rfl, rfl, ?_, rfl⟩
  intro effect heff
  simp only [List.mem_singleton] at heff
  subst heff
  decide

/-- C6, at a concrete call: a writer without flushing, client channel 4, a delivery and a
close notification arriving afterwards. -/
theorem unsupported_transport_refused_witness :
    ((ServeHTTP plainWriter 4).run [Input.event xEvent Outcome.ok, Input.closeNotify]).trace =
      [Effect.httpError "Streaming unsupported" 500] :=
  (unsupported_transport_refused plainWriter 4
    [Input.event xEvent Outcome.ok, Input.closeNotify] entryOrder NewEventServer rfl).1

/-- C8 fails on the code: after the close notification a streaming session is still in its
read loop, it has not returned, and it writes the next event it receives. -/
theorem close_leaves_loop_counterexample :
    ((ServeHTTP streamingWriter 1).run [Input.closeNotify]).handler = HandlerPc.reading ∧
      ((ServeHTTP streamingWriter 1).run [Input.closeNotify]).handler ≠ HandlerPc.returned ∧
      ((ServeHTTP streamingWriter 1).run
          [Input.closeNotify, Input.event yEvent Outcome.ok]).trace =
        Effect.accept 1 :: streamHeaders ++
          [Effect.closing 1, Effect.write (Fprintf yEvent), Effect.flush] := by
  decide

/-- C8 as the code has it: when the close notification fires while the session waits in
its read loop, the watcher goroutine submits Unregister for the handle and ends, and the
handler stays in the read loop, blocked on its channel, then and after every later input
that makes no call panic. -/
theorem close_notification_only_unregisters (s : Session) (inputs : List Input)
    (hs : s.handler = HandlerPc.reading) (hw : s.watcher = WatcherPc.waiting)
    (hp : inputs.any Input.panics = false) :
    (s.step Input.closeNotify).trace = s.trace ++ [Effect.closing s.client] ∧
      (s.step Input.closeNotify).watcher = WatcherPc.done ∧
      (s.step Input.closeNotify).handler = HandlerPc.reading ∧
      ((s.step Input.closeNotify).run inputs).handler = HandlerPc.reading := by
  have hstep : s.step Input.closeNotify =
      { s with watcher := WatcherPc.done, trace := s.trace ++ [Effect.closing s.client] } := by
    simp [Session.step, hw]
  rw [hstep]
  exact ⟨rfl, rfl, hs, Session.run_reading _ inputs hs hp⟩

/-- C8 as the code has it, at a concrete session: the close notification, then a failed
write and a good one. -/
theorem close_notification_only_unregisters_witness :
    (((ServeHTTP streamingWriter 1).step Input.closeNotify).run
      [Input.event xEvent Outcome.writeError, Input.event yEvent Outcome.ok]).handler =
        HandlerPc.reading :=
  (close_notification_only_unregisters (ServeHTTP streamingWriter 1)
    [Input.event xEvent Outcome.writeError, Input.event yEvent Outcome.ok]
    rfl rfl (by decide)).2.2.2

/-- C9 fails on the code: a registered session whose write fails has submitted no
Unregister, and one whose write panics and whose connection then closes has submitted
two. -/
theorem unregister_exactly_once_counterexample :
    unregisterCount 1 ((ServeHTTP streamingWriter 1).run
        [Input.event xEvent Outcome.writeError]).trace = 0 ∧
      unregisterCount 1 ((ServeHTTP streamingWriter 1).run
        [Input.event xEvent Outcome.writePanic, Input.closeNotify]).trace = 2 := by
  decide

/-- C9 as the code has it: for a session that submitted Register, the deferred function
submits Unregister once when the handler unwinds by a panic (the failed assertion of
line 46, or a panicking write or flush) and not otherwise, the watcher submits it once
when it was started and the close notification fires and not otherwise; the total is what
these two give, at most two. -/
theorem unregister_submissions_counted (w : ResponseWriter) (client : Handle)
    (inputs : List Input) (hw : w.flusher = true) :
    Effect.accept client ∈ (ServeHTTP w client).trace ∧
      unregisterCount client ((ServeHTTP w client).run inputs).trace =
        (if w.closeNotifier = false ∨ inputs.any Input.panics = true then 1 else 0) +
          (if w.closeNotifier = true ∧ Input.closeNotify ∈ inputs then 1 else 0) ∧
      unregisterCount client ((ServeHTTP w client).run inputs).trace ≤ 2 := by
  have hcount := Session.run_unregisterCount (ServeHTTP w client) inputs
  have hclient : (ServeHTTP w client).client = client := by
    unfold ServeHTTP
    split
    · rfl
    · split <;> rfl
  rw [hclient] at hcount
  have hformula : unregisterCount client ((ServeHTTP w client).run inputs).trace =
      (if w.closeNotifier = false ∨ inputs.any Input.panics = true then 1 else 0) +
        (if w.closeNotifier = true ∧ Input.closeNotify ∈ inputs then 1 else 0) := by
    rw [hcount]
    cases hc : w.closeNotifier
    · simp [ServeHTTP, hw, hc, unregisterCount]
    · simp [ServeHTTP, hw, hc, unregisterCount, streamHeaders]
  refine ⟨?_, hformula, ?_⟩
  · cases hc : w.closeNotifier <;> simp [ServeHTTP, hw, hc]
  · rw [hformula]
    split <;> split <;> omega

/-- C9 as the code has it, at a concrete session: two deliveries, the second with a failed
write, then the close notification; one Unregister, from the watcher. -/
theorem unregister_submissions_counted_witness :
    unregisterCount 1 ((ServeHTTP streamingWriter 1).run
      [Input.event xEvent Outcome.ok, Input.event yEvent Outcome.writeError,
        Input.closeNotify]).trace = 0 + 1 :=
  (unregister_submissions_counted streamingWriter 1
    [Input.event xEvent Outcome.ok, Input.event yEvent Outcome.writeError,
      Input.closeNotify] rfl).2.1

/-- C10 fails on the code: after a failed write of `x` the session is still in its read
loop, writes the frame of the next event `y`, and has submitted no Unregister. -/
theorem write_failure_terminal_counterexample :
    ((ServeHTTP streamingWriter 1).run
        [Input.event xEvent Outcome.writeError, Input.event yEvent Outcome.ok]).trace =
      Effect.accept 1 :: streamHeaders ++
        [Effect.write (Fprintf xEvent), Effect.flush,
          Effect.write (Fprintf yEvent), Effect.flush] ∧
      ((ServeHTTP streamingWriter 1).run
        [Input.event xEvent Outcome.writeError, Input.event yEvent Outcome.ok]).handler =
          HandlerPc.reading ∧
      unregisterCount 1 ((ServeHTTP streamingWriter 1).run
        [Input.event xEvent Outcome.writeError, Input.event yEvent Outcome.ok]).trace = 0 := by
  decide

/-- C10 as the code has it: a failed write is not terminal. The session in its read loop
runs a failed write exactly like a successful one: it writes the frame once (no retry),
flushes, submits no Unregister, stays in the read loop, and writes the frame of the next
event it receives. -/
theorem write_failure_ignored (s : Session) (e next : Event)
    (hs : s.handler = HandlerPc.reading) :
    s.step (Input.event e Outcome.writeError) = s.step (Input.event e Outcome.ok) ∧
      (s.step (Input.event e Outcome.writeError)).trace =
        s.trace ++ [Effect.write (Fprintf e), Effect.flush] ∧
      (s.step (Input.event e Outcome.writeError)).handler = HandlerPc.reading ∧
      (s.step (Input.event e Outcome.writeError)).watcher = s.watcher ∧
      ((s.step (Input.event e Outcome.writeError)).step (Input.event next Outcome.ok)).trace =
        s.trace ++ [Effect.write (Fprintf e), Effect.flush,
          Effect.write (Fprintf next), Effect.flush] := by
  have hstep : s.step (Input.event e Outcome.writeError) =
      { s with trace := s.trace ++ [Effect.write (Fprintf e), Effect.flush] } := by
    simp [Session.step, hs]
  have hok : s.step (Input.event e Outcome.ok) =
      { s with trace := s.trace ++ [Effect.write (Fprintf e), Effect.flush] } := by
    simp [Session.step, hs]
  rw [hstep, hok]
  refine ⟨rfl, rfl, hs, rfl, ?_⟩
  simp [Session.step, hs]

/-- C10 as the code has it, at a concrete session: a failed write of `x` right after the
session entered its loop. -/
theorem write_failure_ignored_witness :
    ((ServeHTTP streamingWriter 1).step (Input.event xEvent Outcome.writeError)).handler =
      HandlerPc.reading :=
  (write_failure_ignored (ServeHTTP streamingWriter 1) xEvent yEvent rfl).2.2.1

end EventSource
